import Mathlib

/-!
Verification of the Apex wagering decision engine
(`src/Apex_XML_Extractor`): a shallow embedding in Lean 4 of the
tiering / chaos-detection / ticket-construction pipeline
(`apex_horizontal_bankroll_v1_8.py`), the vertical ticket builder
(`verticals_mc_builder_v1_3.py`), the two Monte-Carlo simulators
(`apex_montecarlo_v1.py` and `apex/mc_simulator.py`) and the rank
primitive of the repository's lightweight `pandas.py` shim.

Conventions of the embedding:
* Python floats that hold money, ratings and probabilities are modelled
  as `ℚ`; `round(x, 2)` is modelled exactly as round-half-to-even on
  hundredths (`pyRound2`), which is Python's rounding rule.
* program numbers are `ℤ` (the scripts coerce them with `int(...)`).
* randomness (`np.random.choice`, the per-trial Gamma noise) is made
  explicit: every theorem quantifies over the drawn indices / noise
  vectors, so the statements hold for every possible random draw.
* tabular rows are structures; a per-race slice of the input table is a
  `List` of such rows in input order.
-/

namespace Apex

/-- Python `round` to the nearest integer, ties to even
(banker's rounding), on exact rationals. -/
def roundHalfEven (q : ℚ) : ℤ :=
  let n := ⌊q⌋
  let f := q - n
  if f < 1/2 then n
  else if f > 1/2 then n + 1
  else if n % 2 = 0 then n else n + 1

/-- Python `round(q, 2)`. -/
def pyRound2 (q : ℚ) : ℚ := (roundHalfEven (100 * q) : ℚ) / 100

/-- `builtins.max` over a list of rationals (0 on `[]`, where the Python
code would raise instead; no claim evaluates it there). -/
def qMax : List ℚ → ℚ
  | [] => 0
  | x :: xs => max x (qMax xs)

/-- `builtins.min` over a list of rationals (0 on `[]`, where the Python
code would raise instead; no claim evaluates it there). -/
def qMin : List ℚ → ℚ
  | [] => 0
  | x :: xs => min x (qMin xs)

/-- Sum of a list of rationals. -/
def qSum : List ℚ → ℚ
  | [] => 0
  | x :: xs => x + qSum xs

theorem mem_le_qMax {a : ℚ} {l : List ℚ} (h : a ∈ l) : a ≤ qMax l := by
  induction l with
  | nil => cases h
  | cons x xs ih =>
    rcases List.mem_cons.mp h with h' | h'
    · simp [qMax, h']
    · exact le_trans (ih h') (by simp [qMax])

/-! ## `apex_horizontal_bankroll_v1_8.py` : configuration tables -/

/-- `MIN_UNITS` dict. -/
def MIN_UNITS (s : String) : Option ℚ :=
  if s = "Daily Double" then some 2
  else if s = "Pick 3" then some (1/5)
  else if s = "Pick 4" then some (1/5)
  else if s = "Pick 5" then some (1/5)
  else if s = "Pick 6" then some (1/5)
  else if s = "Swinger" then some 1
  else none

/-- `ALLOC` dict. -/
def ALLOC (s : String) : Option ℚ :=
  if s = "Daily Double" then some (1/4)
  else if s = "Pick 3" then some (1/5)
  else if s = "Pick 4" then some (1/4)
  else if s = "Pick 5" then some (1/5)
  else if s = "Pick 6" then some (1/10)
  else none

/-- `HARD_CAP` dict. -/
def HARD_CAP (s : String) : Option ℚ :=
  if s = "Daily Double" then some 100
  else if s = "Pick 3" then some 80
  else if s = "Pick 4" then some 150
  else if s = "Pick 5" then some 200
  else if s = "Pick 6" then some 300
  else none

/-- The `mins` dict of `build_sequences` (minimum horses kept per leg
when trimming).  The Python dict has exactly the five sequence keys; the
default 1 models the entries other than Daily Double. -/
def minsPerLeg (s : String) : ℕ :=
  if s = "Daily Double" then 2 else 1

/-! ## combinatorial size and the trimming algorithm -/

/-- `combos_count`: product of leg sizes, each leg counting at least 1. -/
def combos_count (ll : List (List ℤ)) : ℕ :=
  ll.foldl (fun acc leg => acc * max 1 leg.length) 1

/-- Total number of horses on the ticket (termination measure of the
trimming loop). -/
def totalLen (ll : List (List ℤ)) : ℕ := (ll.map List.length).sum

/-- `max(idxs, key=lambda i: sizes[i])` over
`idxs = [i for i,sz in enumerate(sizes) if sz > min_per_leg]`:
the first longest leg whose size exceeds the floor, together with its
index; `none` when no leg exceeds the floor. -/
def pickLongest (legs : List (List ℤ)) (m : ℕ) : Option (ℕ × List ℤ) :=
  (legs.enum.filter (fun p => m < p.2.length)).foldl
    (fun acc p =>
      match acc with
      | none => some p
      | some b => if b.2.length < p.2.length then some p else some b)
    none

theorem foldl_pick_mem {l : List (ℕ × List ℤ)} :
    ∀ (acc : Option (ℕ × List ℤ)) (r : ℕ × List ℤ),
      (l.foldl
        (fun acc p =>
          match acc with
          | none => some p
          | some b => if b.2.length < p.2.length then some p else some b)
        acc) = some r →
      r ∈ l ∨ acc = some r := by
  induction l with
  | nil => intro acc r h; exact Or.inr h
  | cons x xs ih =>
    intro acc r h
    rcases ih _ r h with h' | h'
    · exact Or.inl (List.mem_cons_of_mem _ h')
    · match acc with
      | none =>
        simp only [Option.some.injEq] at h'
        exact Or.inl (h' ▸ List.mem_cons_self _ _)
      | some b =>
        by_cases hb : b.2.length < x.2.length
        · simp only [hb, if_pos] at h'
          simp only [Option.some.injEq] at h'
          exact Or.inl (h' ▸ List.mem_cons_self _ _)
        · simp only [hb, if_neg, not_false_iff] at h'
          exact Or.inr h'

theorem pickLongest_mem {legs : List (List ℤ)} {m : ℕ} {i : ℕ}
    {leg : List ℤ} (h : pickLongest legs m = some (i, leg)) :
    legs.get? i = some leg ∧ m < leg.length := by
  rcases foldl_pick_mem none (i, leg) h with h' | h'
  · have h₁ := List.of_mem_filter h'
    have h₂ := List.mem_of_mem_filter h'
    simp only [decide_eq_true_eq] at h₁
    refine ⟨?_, h₁⟩
    have := (List.mk_mem_enum_iff_getElem? (l := legs)).mp h₂
    simpa [List.get?_eq_getElem?] using this
  · cases h'

/-- If every leg already sits at (or below) the floor, no leg can be
picked for trimming. -/
theorem pickLongest_none {legs : List (List ℤ)} {m : ℕ}
    (h : ∀ l ∈ legs, l.length ≤ m) : pickLongest legs m = none := by
  unfold pickLongest
  have : legs.enum.filter (fun p => m < p.2.length) = [] := by
    apply List.filter_eq_nil_iff.mpr
    intro p hp
    have hmem : p.2 ∈ legs := by
      have := List.enum_map_snd legs
      exact this ▸ List.mem_map_of_mem Prod.snd hp
    simpa using not_lt.mpr (h p.2 hmem)
  rw [this]
  rfl

theorem totalLen_set_lt :
    ∀ (legs : List (List ℤ)) (i : ℕ) (leg leg' : List ℤ),
      legs.get? i = some leg → leg'.length < leg.length →
      totalLen (legs.set i leg') < totalLen legs := by
  intro legs
  induction legs with
  | nil => intro i leg leg' h; cases h
  | cons x xs ih =>
    intro i leg leg' h hlt
    cases i with
    | zero =>
      simp only [List.get?] at h
      cases h
      simp only [List.set, totalLen, List.map, List.sum_cons]
      omega
    | succ n =>
      simp only [List.get?] at h
      have := ih n leg leg' h hlt
      simp only [List.set, totalLen, List.map, List.sum_cons] at *
      omega

/-- Dropping the last horse of a leg picked by `pickLongest` strictly
shrinks the ticket. -/
theorem totalLen_after_pick {legs : List (List ℤ)} {m i : ℕ} {leg : List ℤ}
    (hp : pickLongest legs m = some (i, leg)) :
    totalLen (legs.set i leg.dropLast) < totalLen legs := by
  have hmem := pickLongest_mem hp
  have hne : leg ≠ [] := by
    intro hnil
    rw [hnil] at hmem
    simp at hmem
  have hdrop : leg.dropLast.length < leg.length := by
    rw [List.length_dropLast]
    have : 0 < leg.length := List.length_pos.mpr hne
    omega
  exact totalLen_set_lt legs i leg leg.dropLast hmem.1 hdrop

/-- The `while` loop of `trim_ticket_to_cap` (the unit has already been
rescaled to `su`): drop the last horse of the first longest leg above
the floor until the cost fits the cap or no leg can shrink.  The extra
`all` test reproduces the loop's second `break`. -/
def trimLoop (su cap : ℚ) (m : ℕ) (legs : List (List ℤ)) : List (List ℤ) :=
  if (combos_count legs : ℚ) * su ≤ cap then legs
  else
    match h : pickLongest legs m with
    | none => legs
    | some (i, leg) =>
      let legs2 := legs.set i leg.dropLast
      if legs2.all (fun l => l.length ≤ m) then legs2
      else trimLoop su cap m legs2
termination_by totalLen legs
decreasing_by exact totalLen_after_pick h

/-- `trim_ticket_to_cap` from `apex_horizontal_bankroll_v1_8.py`. -/
def trim_ticket_to_cap (seq_name : String) (legs_lists : List (List ℤ))
    (unit cap : ℚ) (min_per_leg : ℕ) : List (List ℤ) × ℚ :=
  if (combos_count legs_lists : ℚ) * unit ≤ cap then (legs_lists, unit)
  else
    let min_unit := (MIN_UNITS seq_name).getD unit
    let scaled_unit :=
      max min_unit (pyRound2 (cap / (max 1 (combos_count legs_lists) : ℕ)))
    if (combos_count legs_lists : ℚ) * scaled_unit ≤ cap then
      (legs_lists, scaled_unit)
    else
      (trimLoop scaled_unit cap min_per_leg legs_lists, scaled_unit)

/-- The combinatorial size is always at least 1 (every factor is
`max 1 _`). -/
theorem combos_count_pos (ll : List (List ℤ)) : 1 ≤ combos_count ll := by
  suffices h : ∀ (l : List (List ℤ)) (acc : ℕ),
      acc ≤ l.foldl (fun acc leg => acc * max 1 leg.length) acc by
    exact h ll 1
  intro l
  induction l with
  | nil => intro acc; exact le_refl acc
  | cons x xs ih =>
    intro acc
    calc acc ≤ acc * max 1 x.length :=
          Nat.le_mul_of_pos_right acc (lt_of_lt_of_le Nat.zero_lt_one (le_max_left _ _))
      _ ≤ _ := ih (acc * max 1 x.length)

/-! ## the `emit` step of `build_sequences` -/

/-- `range(s, e+1)` over integers. -/
def rangeInt (s e : ℤ) : List ℤ :=
  (List.range (e + 1 - s).toNat).map (fun k => s + k)

/-- One output row of `build_sequences`. -/
structure SeqRow where
  sequence : String
  start_race : ℤ
  end_race : ℤ
  unit : ℚ
  combos : ℕ
  cost : ℚ
  legs : String
  notes : String
deriving Repr, DecidableEq

/-- `emit` from `build_sequences`.  The per-race data of the card
(already-computed legs, chaos flags and detected singles) enters as the
functions `legsFor`, `chaosMap` and `singleMap`; `bankroll` is the
base × multiplier amount computed by `build_sequences`. -/
def emit (bankroll : ℚ) (legsFor : ℤ → List ℤ) (chaosMap : ℤ → Bool)
    (singleMap : ℤ → Option ℤ) (seq_name : String) (span : Option (ℤ × ℤ))
    (min_per_leg : ℕ) : Option SeqRow :=
  match span with
  | none => none
  | some (s, e) =>
    let rng := rangeInt s e
    let legs_lists := rng.map legsFor
    if legs_lists.any (fun l => l.isEmpty) then none
    else
      let unit := (MIN_UNITS seq_name).getD (1/5)
      let combos := combos_count legs_lists
      let raw_cost := (combos : ℚ) * unit
      let alloc_cap := bankroll * ((ALLOC seq_name).getD (3/20))
      let hard := (HARD_CAP seq_name).getD alloc_cap
      let cap := min alloc_cap hard
      let fl := trim_ticket_to_cap seq_name legs_lists unit cap min_per_leg
      let combos2 := combos_count fl.1
      let cost2 := pyRound2 ((combos2 : ℚ) * fl.2)
      let notes0 :=
        (if rng.any chaosMap then ["Chaos legs spread"] else []) ++
        (if rng.any (fun r => (singleMap r).isSome) then ["Anchor single"] else []) ++
        (if cost2 < raw_cost then ["Trimmed to cap"] else [])
      let notes := if notes0.isEmpty then ["Standard structure"] else notes0
      some { sequence := seq_name, start_race := s, end_race := e,
             unit := pyRound2 fl.2, combos := combos2, cost := cost2,
             legs := String.intercalate (" / ")
               (fl.1.map (fun leg => String.intercalate (",") (leg.map toString))),
             notes := String.intercalate ("; ") notes }

/-! ## spec-modelled trimming (for the refinement claim C1) -/

/-- Modelled from the spec §4.4: the leg-shrinking loop exactly as the
spec words it — repeat while cost exceeds the cap and some leg exceeds
its floor: remove the last-ranked candidate of the currently-longest
such leg and recompute the combinatorial size. -/
def specShrinkLoop (su cap : ℚ) (m : ℕ) (legs : List (List ℤ)) : List (List ℤ) :=
  if (combos_count legs : ℚ) * su ≤ cap then legs
  else
    match h : pickLongest legs m with
    | none => legs
    | some (i, leg) => specShrinkLoop su cap m (legs.set i leg.dropLast)
termination_by totalLen legs
decreasing_by exact totalLen_after_pick h

/-- Modelled from the spec §4.4: accept when under cap; otherwise
rescale the unit once to `max(min_unit, round(cap/combinations, 2))`
and stop if that fits; otherwise shrink legs with `specShrinkLoop`
(the over-cap result is still returned, never dropped). -/
def specTrim (seq_name : String) (legs_lists : List (List ℤ))
    (unit cap : ℚ) (min_per_leg : ℕ) : List (List ℤ) × ℚ :=
  if (combos_count legs_lists : ℚ) * unit ≤ cap then (legs_lists, unit)
  else
    let min_unit := (MIN_UNITS seq_name).getD unit
    let scaled_unit := max min_unit (pyRound2 (cap / (combos_count legs_lists : ℚ)))
    if (combos_count legs_lists : ℚ) * scaled_unit ≤ cap then
      (legs_lists, scaled_unit)
    else
      (specShrinkLoop scaled_unit cap min_per_leg legs_lists, scaled_unit)

theorem trimLoop_eq_specShrinkLoop (su cap : ℚ) (m : ℕ) :
    ∀ (n : ℕ) (legs : List (List ℤ)), totalLen legs ≤ n →
      trimLoop su cap m legs = specShrinkLoop su cap m legs := by
  intro n
  induction n with
  | zero =>
    intro legs hn
    rw [trimLoop, specShrinkLoop]
    by_cases hc : (combos_count legs : ℚ) * su ≤ cap
    · simp [hc]
    · simp only [hc, if_false]
      cases hp : pickLongest legs m with
      | none => rfl
      | some p =>
        exfalso
        obtain ⟨i, leg⟩ := p
        have := totalLen_after_pick hp
        omega
  | succ k ih =>
    intro legs hn
    rw [trimLoop, specShrinkLoop]
    by_cases hc : (combos_count legs : ℚ) * su ≤ cap
    · simp [hc]
    · simp only [hc, if_false]
      cases hp : pickLongest legs m with
      | none => rfl
      | some p =>
        obtain ⟨i, leg⟩ := p
        simp only []
        by_cases hall : (legs.set i leg.dropLast).all (fun l => decide (l.length ≤ m))
        · simp only [hall, if_pos]
          rw [specShrinkLoop]
          by_cases hc2 : (combos_count (legs.set i leg.dropLast) : ℚ) * su ≤ cap
          · simp [hc2]
          · simp only [hc2, if_false]
            have hnone : pickLongest (legs.set i leg.dropLast) m = none := by
              apply pickLongest_none
              intro l hl
              have := List.all_eq_true.mp hall l hl
              simpa using this
            rw [hnone]
        · simp only [hall, if_neg, not_false_iff]
          have hlt := totalLen_after_pick hp
          exact ih (legs.set i leg.dropLast) (by omega)

/-! evaluation lemmas used to run the trimming loop on concrete tickets -/

theorem trimLoop_stop {su cap : ℚ} {m : ℕ} {legs : List (List ℤ)}
    (hc : (combos_count legs : ℚ) * su ≤ cap) :
    trimLoop su cap m legs = legs := by
  rw [trimLoop, if_pos hc]

theorem trimLoop_step {su cap : ℚ} {m : ℕ} {legs : List (List ℤ)} {i : ℕ}
    {leg : List ℤ} (hc : ¬ (combos_count legs : ℚ) * su ≤ cap)
    (hp : pickLongest legs m = some (i, leg)) :
    trimLoop su cap m legs =
      if (legs.set i leg.dropLast).all (fun l => l.length ≤ m) then
        legs.set i leg.dropLast
      else trimLoop su cap m (legs.set i leg.dropLast) := by
  rw [trimLoop, if_neg hc]
  split
  · rename_i heq
    rw [hp] at heq
    cases heq
  · rename_i i' leg' heq
    rw [hp] at heq
    injection heq with heq2
    injection heq2 with h1 h2
    subst h1
    subst h2
    rfl

theorem MIN_UNITS_pick3 : MIN_UNITS ("Pick 3") = some (1/5) := rfl

theorem MIN_UNITS_nokey : MIN_UNITS ("NoSuchBet") = none := rfl

/-! ## `pandas.py` shim : `Series.rank`

The shim sorts the `(value, original_index)` pairs (Python's `sorted`,
i.e. lexicographically, reversed when `ascending=False`), walks the
groups of equal values assigning each group the current rank
(`method="min"`) or the group average (otherwise), and scatters the
rank values back to the original positions. -/

/-- The order in which `sorted(..., reverse=not ascending)` arranges the
`(value, index)` pairs. -/
def pairLe : Bool → (ℚ × ℕ) → (ℚ × ℕ) → Prop
  | true, a, b => a.1 < b.1 ∨ (a.1 = b.1 ∧ a.2 ≤ b.2)
  | false, a, b => b.1 < a.1 ∨ (a.1 = b.1 ∧ b.2 ≤ a.2)

instance : ∀ (asc : Bool), DecidableRel (pairLe asc)
  | true, a, b => inferInstanceAs (Decidable (_ ∨ _))
  | false, a, b => inferInstanceAs (Decidable (_ ∨ _))

instance : IsTotal (ℚ × ℕ) (pairLe false) := ⟨by
  intro a b
  rcases lt_trichotomy a.1 b.1 with h | h | h
  · exact Or.inr (Or.inl h)
  · rcases le_total a.2 b.2 with h2 | h2
    · exact Or.inr (Or.inr ⟨h.symm, h2⟩)
    · exact Or.inl (Or.inr ⟨h, h2⟩)
  · exact Or.inl (Or.inl h)⟩

instance : IsTrans (ℚ × ℕ) (pairLe false) := ⟨by
  intro a b c hab hbc
  rcases hab with h1 | ⟨h1, h2⟩ <;> rcases hbc with h3 | ⟨h3, h4⟩
  · exact Or.inl (h3.trans h1)
  · exact Or.inl (h3 ▸ h1)
  · exact Or.inl (lt_of_lt_of_le h3 (le_of_eq h1.symm))
  · exact Or.inr ⟨h1.trans h3, h4.trans h2⟩⟩

/-- The group-walking loop of `Series.rank`: consume the sorted pairs
group by equal value, emitting `(original_index, rank_value)`. -/
def assignGroupRanks (methodMin : Bool) :
    List (ℚ × ℕ) → ℕ → List (ℕ × ℚ)
  | [], _ => []
  | (v, i) :: rest, cur =>
    let grp := rest.takeWhile (fun p => p.1 = v)
    let rest2 := rest.dropWhile (fun p => p.1 = v)
    let rv : ℚ := if methodMin then (cur : ℚ)
                  else ((cur : ℚ) + ((cur : ℚ) + grp.length) - 1) / 2
    ((i, rv) :: grp.map (fun p => (p.2, rv))) ++
      assignGroupRanks methodMin rest2 (cur + grp.length + 1)
termination_by l _ => l.length
decreasing_by
  have := (List.dropWhile_sublist (l := rest) (p := fun p => decide (p.1 = v))).length_le
  simpa using Nat.lt_succ_of_le this

/-- `Series.rank(method=..., ascending=...)` of the `pandas.py` shim. -/
def seriesRank (methodMin ascending : Bool) (vs : List ℚ) : List ℚ :=
  let pairs := vs.enum.map (fun p => (p.2, p.1))
  let sortedPairs := List.insertionSort (pairLe ascending) pairs
  let assigned := assignGroupRanks methodMin sortedPairs 1
  (List.range vs.length).map
    (fun i => ((assigned.find? (fun p => p.1 = i)).map Prod.snd).getD 0)

/-! ## tiering, chaos and single detection -/

/-- One starter row of the horizontal builder: `program`, the resolved
rating column `CPR_STD` and the clipped win probability `MC_WIN`. -/
structure Starter where
  program : ℤ
  cpr : ℚ
  mc : ℚ
deriving DecidableEq, Repr

inductive Tier where
  | A
  | B
  | C
deriving DecidableEq, Repr

def A_MC_MIN : ℚ := 28/100
def B_MC_MIN : ℚ := 16/100
def B_CPR_DELTA_MAX : ℚ := 8
def MC_TOP_CHAOS_MAX : ℚ := 22/100
def CPR_SPREAD3_MAX : ℚ := 3
def ADVERSITY_MIN : ℕ := 2
def SINGLE_MC_MIN : ℚ := 34/100
def SINGLE_CPR_GAP : ℚ := 3
def MAX_PER_LEG_NON_CHAOS : ℕ := 4
def MAX_PER_LEG_CHAOS : ℕ := 6

/-- `assign_tiers`: rank the ratings descending with the min-rank
convention, then A if rank ≤ 2 or probability ≥ 0.28, else B if within
8 rating points of the leader or probability ≥ 0.16, else C. -/
def assign_tiers (sub : List Starter) : List (Starter × Tier) :=
  let ranks := seriesRank true false (sub.map (fun st => st.cpr))
  let lead := qMax (sub.map (fun st => st.cpr))
  (sub.zip ranks).map (fun (p : Starter × ℚ) =>
    (p.1,
      if p.2 ≤ 2 ∨ p.1.mc ≥ A_MC_MIN then Tier.A
      else if (¬ (p.2 ≤ 2 ∨ p.1.mc ≥ A_MC_MIN)) ∧
          (lead - p.1.cpr ≤ B_CPR_DELTA_MAX ∨ p.1.mc ≥ B_MC_MIN) then Tier.B
      else Tier.C))

/-- `count_adversity_flags`: the race's present adversity columns are
given as lists of values; a column with any positive value counts as
one flag. -/
def count_adversity_flags (advCols : List (List ℚ)) : ℕ :=
  (advCols.filter (fun c => c.any (fun v => 0 < v))).length

/-- `chaos_leg`: top win probability below 0.22, top-3 rating spread
below 3.0 and at least 2 adversity flags. -/
def chaos_leg (sub : List Starter) (advCols : List (List ℚ)) : Bool :=
  let mc_top := qMax (sub.map (fun st => st.mc))
  let cprs := sub.map (fun st => st.cpr)
  let top3 := (List.insertionSort (fun a b : ℚ => b ≤ a) cprs).take 3
  let spread3 := if top3.length = 3 then top3.headI - (top3.getLast?.getD 0)
                 else top3.headI - qMin cprs
  decide (mc_top < MC_TOP_CHAOS_MAX) && decide (spread3 < CPR_SPREAD3_MAX)
    && decide (ADVERSITY_MIN ≤ count_adversity_flags advCols)

/-- `detect_single`: the top-rated starter when its win probability is
at least 0.34 and its rating gap to the runner-up at least 3.0 (999
stands for the gap of a one-horse race, as in the source). -/
def detect_single (sub : List Starter) : Option ℤ :=
  let s := List.insertionSort (fun a b : Starter => b.cpr ≤ a.cpr) sub
  match s with
  | [] => none
  | x :: rest =>
    let cpr_gap := match rest with
      | [] => (999 : ℚ)
      | y :: _ => x.cpr - y.cpr
    if x.mc ≥ SINGLE_MC_MIN ∧ cpr_gap ≥ SINGLE_CPR_GAP then some x.program
    else none

/-- `cap_leg`. -/
def cap_leg (legs : List ℤ) (is_chaos : Bool) : List ℤ :=
  legs.take (if is_chaos then MAX_PER_LEG_CHAOS else MAX_PER_LEG_NON_CHAOS)

/-- `keep["Tier"].map({"A":0,"B":1,"C":2})`. -/
def tierOrd : Tier → ℕ
  | Tier.A => 0
  | Tier.B => 1
  | Tier.C => 2

/-- The hybrid score `0.7*MC_WIN + 0.3*(CPR - min)/(max - min + 1e-9)`
(min/max over the kept starters). -/
def hybrid_score (minC maxC : ℚ) (st : Starter) : ℚ :=
  (7/10) * st.mc + (3/10) * (st.cpr - minC) / (maxC - minC + 1/1000000000)

/-- The sort key order of `sort_values(["_tier_ord","_score"],
ascending=[True, False])`: tier order ascending, then hybrid score
descending, ties kept in row order (the third component is the row
position). -/
def k8Le (a b : ℕ × ℚ × ℕ) : Prop :=
  a.1 < b.1 ∨ (a.1 = b.1 ∧ (b.2.1 < a.2.1 ∨ (a.2.1 = b.2.1 ∧ a.2.2 ≤ b.2.2)))

instance : DecidableRel k8Le := fun a b =>
  inferInstanceAs (Decidable (a.1 < b.1 ∨ (a.1 = b.1 ∧
    (b.2.1 < a.2.1 ∨ (a.2.1 = b.2.1 ∧ a.2.2 ≤ b.2.2)))))

instance {α : Type} : DecidableRel (fun (a b : (ℕ × ℚ × ℕ) × α) => k8Le a.1 b.1) :=
  fun a b => inferInstanceAs (Decidable (k8Le a.1 b.1))

/-- `legs_from_tiers`: the detected single alone if present; otherwise
the Tier A+B starters (A+B+C under chaos) sorted by tier order then
hybrid score descending, capped at the per-leg maximum. -/
def legs_from_tiers (tiered : List (Starter × Tier)) (is_chaos : Bool)
    (single_prog : Option ℤ) : List ℤ :=
  match single_prog with
  | some p => [p]
  | none =>
    let keep := if is_chaos then
        tiered.filter (fun p => p.2 = Tier.A ∨ p.2 = Tier.B ∨ p.2 = Tier.C)
      else tiered.filter (fun p => p.2 = Tier.A ∨ p.2 = Tier.B)
    let minC := qMin (keep.map (fun p => p.1.cpr))
    let maxC := qMax (keep.map (fun p => p.1.cpr))
    let items := keep.enum.map
      (fun q => ((tierOrd q.2.2, hybrid_score minC maxC q.2.1, q.1), q.2))
    let sorted := List.insertionSort (fun a b => k8Le a.1 b.1) items
    cap_leg (sorted.map (fun it => it.2.1.program)) is_chaos

/-! ## lemmas for the rank characterization (C9) -/

theorem dropWhile_head_ne {p : ℚ × ℕ → Bool} :
    ∀ (l : List (ℚ × ℕ)) {x : ℚ × ℕ} {t : List (ℚ × ℕ)},
      l.dropWhile p = x :: t → p x = false := by
  intro l
  induction l with
  | nil => intro x t h; cases h
  | cons a l ih =>
    intro x t h
    rw [List.dropWhile_cons] at h
    by_cases hpa : p a = true
    · rw [if_pos hpa] at h
      exact ih h
    · rw [if_neg hpa] at h
      injection h with h1 h2
      subst h1
      exact Bool.eq_false_iff.mpr hpa

theorem agr_min_eq_map (n : ℕ) :
    ∀ (S : List (ℚ × ℕ)) (c : ℕ), S.length ≤ n → S.Sorted (pairLe false) →
      assignGroupRanks true S c =
        S.map (fun p => (p.2, ((c + S.countP (fun q => decide (p.1 < q.1)) : ℕ) : ℚ))) := by
  induction n with
  | zero =>
    intro S c hn _
    have : S = [] := List.length_eq_zero.mp (Nat.le_zero.mp hn)
    subst this
    simp [assignGroupRanks]
  | succ k ih =>
    intro S c hn hs
    match S with
    | [] => simp [assignGroupRanks]
    | (v, i) :: rest =>
      have hrest_sorted : rest.Sorted (pairLe false) := (List.sorted_cons.mp hs).2
      have hhead : ∀ q ∈ rest, pairLe false (v, i) q := (List.sorted_cons.mp hs).1
      have hle : ∀ q ∈ rest, q.1 ≤ v := by
        intro q hq
        rcases hhead q hq with h | ⟨h, _⟩
        · exact le_of_lt h
        · exact le_of_eq h.symm
      set grp := rest.takeWhile (fun p => decide (p.1 = v)) with hgrp_def
      set rest2 := rest.dropWhile (fun p => decide (p.1 = v)) with hrest2_def
      have heq_split : grp ++ rest2 = rest := by
        rw [hgrp_def, hrest2_def]
        exact List.takeWhile_append_dropWhile _ rest
      have hgrp_val : ∀ p ∈ grp, p.1 = v := by
        intro p hp
        have := List.mem_takeWhile_imp hp
        simpa using this
      have hgrp_mem : ∀ p ∈ grp, p ∈ rest := by
        intro p hp
        rw [← heq_split]
        exact List.mem_append_left _ hp
      have hrest2_mem : ∀ p ∈ rest2, p ∈ rest := by
        intro p hp
        rw [← heq_split]
        exact List.mem_append_right _ hp
      have hrest2_sorted : rest2.Sorted (pairLe false) :=
        List.Pairwise.sublist (List.dropWhile_sublist _) hrest_sorted
      have hrest2_lt : ∀ q ∈ rest2, q.1 < v := by
        cases hr2 : rest2 with
        | nil => simp
        | cons r0 t =>
          have hr0ne : ¬ (r0.1 = v) := by
            have := dropWhile_head_ne (p := fun p => decide (p.1 = v)) rest hr2
            simpa using this
          have hr0lt : r0.1 < v := by
            have hmem : r0 ∈ rest2 := by rw [hr2]; exact List.mem_cons_self _ _
            exact lt_of_le_of_ne (hle r0 (hrest2_mem r0 hmem)) hr0ne
          intro q hq
          rcases List.mem_cons.mp hq with h | h
          · exact h ▸ hr0lt
          · have hpair : pairLe false r0 q := by
              have := hrest2_sorted
              rw [hr2] at this
              exact (List.sorted_cons.mp this).1 q h
            rcases hpair with hlt | ⟨heq, _⟩
            · exact lt_trans hlt hr0lt
            · exact heq ▸ hr0lt
      -- length bound for the recursive call
      have hlen2 : rest2.length ≤ k := by
        have h1 : rest2.length ≤ rest.length := (List.dropWhile_sublist _).length_le
        have h2 : rest.length + 1 ≤ k + 1 := by simpa using hn
        omega
      have hIH := ih rest2 (c + grp.length + 1) hlen2 hrest2_sorted
      -- unfold one step of the loop
      rw [assignGroupRanks]
      simp only [← hgrp_def, ← hrest2_def, if_true, hIH]
      -- head rank: nothing in S is above v
      have hcount_head :
          ((v, i) :: rest).countP (fun q => decide (v < q.1)) = 0 := by
        apply List.countP_eq_zero.mpr
        intro q hq
        rcases List.mem_cons.mp hq with h | h
        · subst h
          simp
        · simp [not_lt.mpr (hle q h)]
      -- group members: same count as the head
      have hcount_grp : ∀ p ∈ grp,
          ((v, i) :: rest).countP (fun q => decide (p.1 < q.1)) = 0 := by
        intro p hp
        rw [hgrp_val p hp]
        exact hcount_head
      -- rest2 members: head and whole group are all strictly above
      have hcount_rest2 : ∀ p ∈ rest2,
          ((v, i) :: rest).countP (fun q => decide (p.1 < q.1)) =
            1 + grp.length + rest2.countP (fun q => decide (p.1 < q.1)) := by
        intro p hp
        have hplt : p.1 < v := hrest2_lt p hp
        rw [List.countP_cons, ← heq_split, List.countP_append]
        have hgrpfull : grp.countP (fun q => decide (p.1 < q.1)) = grp.length := by
          apply List.countP_eq_length.mpr
          intro q hq
          simp [hgrp_val q hq ▸ hplt]
        rw [hgrpfull]
        simp [hplt]
        omega
      -- assemble
      rw [List.map_cons, ← heq_split, List.map_append, List.cons_append]
      congr 1
      · rw [heq_split, hcount_head]
        norm_num
      congr 1
      · apply List.map_congr_left
        intro p hp
        rw [heq_split, hcount_grp p hp]
        norm_num
      · apply List.map_congr_left
        intro p hp
        rw [heq_split, hcount_rest2 p hp]
        congr 1
        push_cast
        ring
theorem seriesRank_min_desc (vs : List ℚ) (i : ℕ) (hi : i < vs.length) :
    (seriesRank true false vs).get? i =
      some (((1 + vs.countP (fun w => decide (vs.get ⟨i, hi⟩ < w))) : ℕ) : ℚ) := by
  rw [seriesRank]
  rw [List.get?_eq_getElem?, List.getElem?_map, List.getElem?_range hi]
  set pairs := vs.enum.map (fun p => (p.2, p.1)) with hpairs_def
  set S := List.insertionSort (pairLe false) pairs with hS_def
  have hsorted : S.Sorted (pairLe false) := List.sorted_insertionSort _ _
  have hperm : List.Perm S pairs := List.perm_insertionSort _ _
  have hassigned := agr_min_eq_map S.length S 1 le_rfl hsorted
  rw [hassigned]
  rw [Option.map_some']
  rw [List.find?_map]
  have henum : (i, vs.get ⟨i, hi⟩) ∈ vs.enum :=
    List.mk_mem_enum_iff_getElem?.mpr
      (by simp [List.getElem?_eq_getElem hi, List.get_eq_getElem])
  have hmem_pairs : (vs.get ⟨i, hi⟩, i) ∈ pairs := by
    rw [hpairs_def]
    exact List.mem_map_of_mem (fun p : ℕ × ℚ => (p.2, p.1)) henum
  have hmem_S : (vs.get ⟨i, hi⟩, i) ∈ S := hperm.mem_iff.mpr hmem_pairs
  have hfind_some : (S.find? ((fun x => decide (x.1 = i)) ∘
      (fun p => (p.2, ((1 + S.countP (fun q => decide (p.1 < q.1)) : ℕ) : ℚ))))).isSome := by
    apply List.find?_isSome.mpr
    exact ⟨_, hmem_S, by simp⟩
  cases hfind : S.find? ((fun x => decide (x.1 = i)) ∘
      (fun p => (p.2, ((1 + S.countP (fun q => decide (p.1 < q.1)) : ℕ) : ℚ)))) with
  | none =>
    rw [hfind] at hfind_some
    cases hfind_some
  | some p0 =>
    have hq := List.find?_some hfind
    have hp0i : p0.2 = i := by simpa using hq
    have hp0S : p0 ∈ S := List.mem_of_find?_eq_some hfind
    have hp0pairs : p0 ∈ pairs := hperm.mem_iff.mp hp0S
    have hp0val : p0.1 = vs.get ⟨i, hi⟩ := by
      rw [hpairs_def] at hp0pairs
      obtain ⟨e, he_mem, he_eq⟩ := List.mem_map.mp hp0pairs
      obtain ⟨j, w⟩ := e
      have hj : j = i := by
        have := congrArg Prod.snd he_eq
        simpa [hp0i] using this
      have hw : w = p0.1 := by
        have := congrArg Prod.fst he_eq
        simpa using this
      subst hj
      have := List.mk_mem_enum_iff_getElem?.mp he_mem
      rw [List.getElem?_eq_getElem hi] at this
      injection this with hval
      rw [← hw, List.get_eq_getElem]
      exact hval.symm
    have hcountP : S.countP (fun q => decide (p0.1 < q.1)) =
        vs.countP (fun w => decide (p0.1 < w)) := by
      rw [hperm.countP_eq, hpairs_def, List.countP_map]
      have h2 : vs.countP (fun w => decide (p0.1 < w)) =
          List.countP ((fun w => decide (p0.1 < w)) ∘ Prod.snd) vs.enum := by
        rw [← List.countP_map, List.enum_map_snd]
      rw [h2]
      rfl
    simp only [Option.map_some', Option.getD_some]
    rw [hcountP, hp0val]

/-! ## `verticals_mc_builder_v1_3.py` -/

/-- One input row of the verticals builder. -/
structure VRow where
  race : ℤ
  program : ℤ
  cpr : ℚ
  mc : ℚ
deriving DecidableEq, Repr

/-- One vertical ticket row (`picks` is rendered `"a/b/c"` in the CSV). -/
structure VTicket where
  race : ℤ
  btype : String
  picks : List ℤ
  cost : ℚ
deriving DecidableEq, Repr

instance {α : Type} : DecidableRel (fun (a b : (ℚ × ℕ) × α) => pairLe true a.1 b.1) :=
  fun a b => inferInstanceAs (Decidable (_ ∨ _))

/-- `DataFrame.nsmallest(n, "rank")`: rows stably sorted by their rank,
first `n` kept. -/
def nsmallest_rank (paired : List (VRow × ℚ)) (n : ℕ) : List VRow :=
  ((List.insertionSort (fun a b => pairLe true a.1 b.1)
      (paired.enum.map (fun q => ((q.2.2, q.1), q.2.1)))).map (fun it => it.2)).take n

/-- The anchor/inclusion pools: blended score ranked min-ascending. -/
def vpools (w1 w2 : ℚ) (nA nB : ℕ) (sub : List VRow) : List ℤ × List ℤ :=
  let scores := sub.map (fun r => -w1 * r.cpr - w2 * (100 * r.mc))
  let ranks := seriesRank true true scores
  let paired := sub.zip ranks
  ((nsmallest_rank paired nA).map (fun r => r.program),
   (nsmallest_rank paired nB).map (fun r => r.program))

/-- `exacta_for_race` without its final truncation (the raw nested-loop
enumeration order). -/
def exactaEnumAll (sub : List VRow) (unit : ℚ) : List VTicket :=
  let p := vpools (7/10) (3/10) 2 5 sub
  let race := (sub.head?.map (fun r => r.race)).getD 0
  p.1.bind (fun a => (p.2.filter (fun b => b ≠ a)).map (fun b =>
    ({ race := race, btype := "EXACTA", picks := [a, b], cost := unit } : VTicket)))

/-- `exacta_for_race`. -/
def exacta_for_race (sub : List VRow) (unit : ℚ) (max_lines : ℕ) : List VTicket :=
  (exactaEnumAll sub unit).take max_lines

/-- `trifecta_for_race` without its final truncation. -/
def trifectaEnumAll (sub : List VRow) (unit : ℚ) : List VTicket :=
  let p := vpools (65/100) (35/100) 2 6 sub
  let race := (sub.head?.map (fun r => r.race)).getD 0
  p.1.bind (fun a => p.2.bind (fun b =>
    if a = b then []
    else (p.2.filter (fun c => ¬ (c = a ∨ c = b))).map (fun c =>
      ({ race := race, btype := "TRIFECTA", picks := [a, b, c], cost := unit } : VTicket))))

/-- `trifecta_for_race`. -/
def trifecta_for_race (sub : List VRow) (unit : ℚ) (max_lines : ℕ) : List VTicket :=
  (trifectaEnumAll sub unit).take max_lines

/-- `super_for_race` without its final truncation. -/
def superEnumAll (sub : List VRow) (unit : ℚ) : List VTicket :=
  let p := vpools (6/10) (4/10) 2 7 sub
  let race := (sub.head?.map (fun r => r.race)).getD 0
  p.1.bind (fun a => p.2.bind (fun b =>
    if b = a then []
    else p.2.bind (fun c =>
      if c = a ∨ c = b then []
      else (p.2.filter (fun d => ¬ (d = a ∨ d = b ∨ d = c))).map (fun d =>
        ({ race := race, btype := "SUPER", picks := [a, b, c, d], cost := unit } : VTicket)))))

/-- `super_for_race`. -/
def super_for_race (sub : List VRow) (unit : ℚ) (max_lines : ℕ) : List VTicket :=
  (superEnumAll sub unit).take max_lines

/-! ## `apex_montecarlo_v1.py` -/

/-- One input row of the win-only Monte-Carlo simulator. -/
structure MRow where
  race : ℤ
  program : ℤ
  cpr : ℚ
deriving DecidableEq, Repr

/-- One output row. -/
structure MCOut where
  race : ℤ
  program : ℤ
  winprob : ℚ
deriving DecidableEq, Repr

/-- The race keys in first-appearance order (`df.groupby("race")` in the
`pandas.py` shim iterates the insertion-ordered dict of groups). -/
def uniqKeys : List ℤ → List ℤ
  | [] => []
  | x :: xs => x :: uniqKeys (xs.filter (fun y => y ≠ x))
termination_by l => l.length
decreasing_by
  have := List.length_filter_le (fun y => decide (y ≠ x)) xs
  simpa using Nat.lt_succ_of_le this

/-- `df.groupby("race")`: each race key with its rows in input order. -/
def groupByRace (card : List MRow) : List (ℤ × List MRow) :=
  (uniqKeys (card.map (fun r => r.race))).map
    (fun rc => (rc, card.filter (fun r => r.race = rc)))

/-- The categorical weights of `simulate_race_once`:
`probs = (base - base.min() + 1e-9) / sum` with the `or 1.0` guard. -/
def mc_probs (cprs : List ℚ) : List ℚ :=
  let minb := qMin cprs
  let ps := cprs.map (fun b => b - minb + 1/1000000000)
  let total := qSum ps
  let t := if total = 0 then 1 else total
  ps.map (fun p => p / t)

/-- `simulate_race_once` draws `idx = np.random.choice(len(df), p=probs)`
— always an index below `len(df)` — and returns that row's program; the
randomness is made explicit as the drawn index. -/
def simulate_race_once_v1 (sub : List MRow) (idx : ℕ) : Option ℤ :=
  (sub.get? idx).map (fun r => r.program)

/-- The body of `run_mc_simulation`'s per-race loop: run the trials
(`draws` gives the per-race drawn winner indices, one per trial), tally
with `value_counts(normalize=True)` (including its `or 1` guard on the
total) and emit one row per starter of the race. -/
def race_rows (draws : ℤ → List ℕ) (g : ℤ × List MRow) : List MCOut :=
  let wins := (draws g.1).filterMap (fun i => simulate_race_once_v1 g.2 i)
  let total : ℚ := if wins.length = 0 then 1 else (wins.length : ℚ)
  g.2.map (fun r => ⟨g.1, r.program, (wins.count r.program : ℚ) / total⟩)

/-- `run_mc_simulation`: the concatenated per-race results. -/
def run_mc_simulation (card : List MRow) (draws : ℤ → List ℕ) : List MCOut :=
  (groupByRace card).bind (race_rows draws)

/-! ## `apex/mc_simulator.py` (extended win/place/show simulator) -/

/-- One input row (`pp` is the saddle-cloth program column). -/
structure PRow where
  race : ℤ
  pp : ℤ
  cpr : ℚ
deriving DecidableEq, Repr

/-- One output row of the extended simulator. -/
structure ExtOut where
  race : ℤ
  pp : ℤ
  mc_win : ℚ
  mc_place : ℚ
  mc_show : ℚ
deriving DecidableEq, Repr

/-- `df.groupby("race")` for the extended simulator's rows. -/
def groupByRaceExt (card : List PRow) : List (ℤ × List PRow) :=
  (uniqKeys (card.map (fun r => r.race))).map
    (fun rc => (rc, card.filter (fun r => r.race = rc)))

/-- `np.argsort(scores)[::-1]`: indices sorted by score ascending
(ties by position), then reversed. -/
def argsortDesc (scores : List ℚ) : List ℕ :=
  ((List.insertionSort (fun a b => pairLe true a.1 b.1)
      (scores.enum.map (fun p => ((p.2, p.1), p.1)))).map (fun it => it.2)).reverse

/-- `simulate_race_once` of the extended simulator: positive weights
`np.maximum(base - base.min() + 1e-9, 0.001)`, per-trial Gamma noise
(given explicitly as `noise`), scores ranked descending, and the
`order[0] / order[1] / order[2]` accesses — `none` models the
`IndexError` raised when fewer than 3 starters exist. -/
def simulate_race_once_ext (sub : List PRow) (noise : List ℚ) :
    Option (ℤ × ℤ × ℤ) :=
  let base := sub.map (fun r => r.cpr)
  let base2 := base.map (fun b => max (b - qMin base + 1/1000000000) (1/1000))
  let scores := List.zipWith (fun b n => b * n) base2 noise
  let order := argsortDesc scores
  match order.get? 0, order.get? 1, order.get? 2 with
  | some o0, some o1, some o2 =>
    match (sub.get? o0).map (fun r => r.pp), (sub.get? o1).map (fun r => r.pp),
        (sub.get? o2).map (fun r => r.pp) with
    | some w, some p, some s => some (w, p, s)
    | _, _, _ => none
  | _, _, _ => none

/-- The per-race trial loop; a failing trial propagates (there is no
`try/except` in the source). -/
def race_trials (sub : List PRow) : List (List ℚ) → Option (List (ℤ × ℤ × ℤ))
  | [] => some []
  | nv :: rest =>
    match simulate_race_once_ext sub nv with
    | none => none
    | some t => (race_trials sub rest).map (fun ts => t :: ts)

/-- The rows emitted for one race (win/place/show tallies over the
trials divided by the run count). -/
def race_rows_ext (noises : ℤ → List (List ℚ)) (g : ℤ × List PRow) :
    Option (List ExtOut) :=
  (race_trials g.2 (noises g.1)).map (fun ts =>
    g.2.map (fun r => ⟨g.1, r.pp,
      ((ts.map (fun t => t.1)).count r.pp : ℚ) / ((noises g.1).length : ℚ),
      ((ts.map (fun t => t.2.1)).count r.pp : ℚ) / ((noises g.1).length : ℚ),
      ((ts.map (fun t => t.2.2)).count r.pp : ℚ) / ((noises g.1).length : ℚ)⟩))

/-- `run_mc_simulation` of the extended simulator: races processed in
order, results concatenated; an exception in any race aborts the whole
run (`none`). -/
def run_mc_simulation_ext (card : List PRow) (noises : ℤ → List (List ℚ)) :
    Option (List ExtOut) :=
  (groupByRaceExt card).foldr
    (fun g acc =>
      match race_rows_ext noises g, acc with
      | some rows, some rest => some (rows ++ rest)
      | _, _ => none)
    (some [])

instance : IsTotal (ℕ × ℚ × ℕ) k8Le := ⟨by
  intro a b
  rcases Nat.lt_trichotomy a.1 b.1 with h | h | h
  · exact Or.inl (Or.inl h)
  · rcases lt_trichotomy a.2.1 b.2.1 with h2 | h2 | h2
    · exact Or.inr (Or.inr ⟨h.symm, Or.inl h2⟩)
    · rcases Nat.le_total a.2.2 b.2.2 with h3 | h3
      · exact Or.inl (Or.inr ⟨h, Or.inr ⟨h2, h3⟩⟩)
      · exact Or.inr (Or.inr ⟨h.symm, Or.inr ⟨h2.symm, h3⟩⟩)
    · exact Or.inl (Or.inr ⟨h, Or.inl h2⟩)
  · exact Or.inr (Or.inl h)⟩

instance : IsTrans (ℕ × ℚ × ℕ) k8Le := ⟨by
  intro a b c hab hbc
  rcases hab with h1 | ⟨h1, h1'⟩ <;> rcases hbc with h2 | ⟨h2, h2'⟩
  · exact Or.inl (h1.trans h2)
  · exact Or.inl (h2 ▸ h1)
  · exact Or.inl (h1 ▸ h2)
  · refine Or.inr ⟨h1.trans h2, ?_⟩
    rcases h1' with h3 | ⟨h3, h3'⟩ <;> rcases h2' with h4 | ⟨h4, h4'⟩
    · exact Or.inl (h4.trans h3)
    · exact Or.inl (h4 ▸ h3)
    · exact Or.inl (h3 ▸ h4)
    · exact Or.inr ⟨h3.trans h4, h3'.trans h4'⟩⟩

instance : IsAntisymm (ℕ × ℚ × ℕ) k8Le := ⟨by
  intro a b hab hba
  rcases hab with h1 | ⟨h1, h1'⟩ <;> rcases hba with h2 | ⟨h2, h2'⟩
  · omega
  · omega
  · omega
  · obtain ⟨a1, a2, a3⟩ := a
    obtain ⟨b1, b2, b3⟩ := b
    simp only [] at h1 h1' h2 h2'
    subst h1
    rcases h1' with h3 | ⟨h3, h3'⟩ <;> rcases h2' with h4 | ⟨h4, h4'⟩
    · exact absurd (h3.trans h4) (lt_irrefl _)
    · exact absurd h3 (h4 ▸ lt_irrefl _)
    · exact absurd h4 (h3 ▸ lt_irrefl _)
    · have : a3 = b3 := Nat.le_antisymm h3' h4'
      rw [h3, this]⟩

instance {P : Type} : IsTotal ((ℕ × ℚ × ℕ) × P) (fun a b => k8Le a.1 b.1) :=
  ⟨fun a b => IsTotal.total (r := k8Le) a.1 b.1⟩

instance {P : Type} : IsTrans ((ℕ × ℚ × ℕ) × P) (fun a b => k8Le a.1 b.1) :=
  ⟨fun _ _ _ hab hbc => IsTrans.trans (r := k8Le) _ _ _ hab hbc⟩

theorem eq_of_perm_of_sorted_of_nodupkeys {α κ : Type} (key : α → κ)
    (r : κ → κ → Prop) [IsAntisymm κ r] :
    ∀ {l₁ l₂ : List α}, List.Perm l₁ l₂ →
      List.Sorted (fun a b => r (key a) (key b)) l₁ →
      List.Sorted (fun a b => r (key a) (key b)) l₂ →
      (l₁.map key).Nodup → l₁ = l₂ := by
  intro l₁
  induction l₁ with
  | nil =>
    intro l₂ hp _ _ _
    exact (hp.nil_eq).symm ▸ rfl
  | cons x t₁ ih =>
    intro l₂ hp hs₁ hs₂ hnd
    cases l₂ with
    | nil => exact absurd hp.symm.nil_eq (by simp)
    | cons y t₂ =>
      have hs1m : List.Sorted r ((x :: t₁).map key) := (List.pairwise_map).mpr hs₁
      have hs2m : List.Sorted r ((y :: t₂).map key) := (List.pairwise_map).mpr hs₂
      have hmap : ((x :: t₁).map key) = ((y :: t₂).map key) :=
        List.eq_of_perm_of_sorted (hp.map key) hs1m hs2m
      have hkey_eq : key x = key y := by
        injection hmap with h _
      have hxy : x = y := by
        have hy_mem : y ∈ x :: t₁ := hp.mem_iff.mpr (List.mem_cons_self _ _)
        rcases List.mem_cons.mp hy_mem with h | h
        · exact h.symm
        · exfalso
          have : key y ∈ t₁.map key := List.mem_map_of_mem key h
          rw [← hkey_eq] at this
          exact (List.nodup_cons.mp (by simpa using hnd)).1 this
      subst hxy
      have htails : List.Perm t₁ t₂ := hp.cons_inv
      have := ih htails (List.sorted_cons.mp hs₁).2 (List.sorted_cons.mp hs₂).2
        (List.nodup_cons.mp (by simpa using hnd)).2
      rw [this]
abbrev K8Item := (ℕ × ℚ × ℕ) × (Starter × Tier)

theorem perm_three_blocks :
    ∀ (l : List K8Item), (∀ x ∈ l, x.1.1 ≤ 2) →
      List.Perm l (l.filter (fun x => x.1.1 = 0) ++ l.filter (fun x => x.1.1 = 1)
        ++ l.filter (fun x => x.1.1 = 2)) := by
  intro l
  induction l with
  | nil => intro _; simp
  | cons x t ih =>
    intro h
    have hx : x.1.1 ≤ 2 := h x (List.mem_cons_self _ _)
    have ht := ih (fun y hy => h y (List.mem_cons_of_mem _ hy))
    interval_cases hv : x.1.1
    · simp only [List.filter_cons, hv, if_pos, decide_eq_true_eq]
      norm_num
      exact ht.trans (by rw [List.append_assoc])
    · simp only [List.filter_cons, decide_eq_true_eq]
      norm_num [hv]
      refine List.Perm.trans (ht.cons x) ?_
      rw [List.append_assoc]
      exact (List.perm_middle).symm
    · simp only [List.filter_cons, decide_eq_true_eq]
      norm_num [hv]
      refine List.Perm.trans (ht.cons x) ?_
      rw [← List.append_assoc]
      exact (List.perm_middle).symm
theorem mem_sort_filter_tier (items : List K8Item) (t : ℕ) :
    ∀ a ∈ List.insertionSort (fun a b => k8Le a.1 b.1)
        (items.filter (fun it => it.1.1 = t)), a.1.1 = t := by
  intro a ha
  have h1 := (List.perm_insertionSort
    (fun a b : K8Item => k8Le a.1 b.1) (items.filter (fun it => it.1.1 = t))).mem_iff.mp ha
  have := List.of_mem_filter h1
  simpa using this

theorem sort_eq_tier_blocks (items : List K8Item)
    (hkey : (items.map (fun it => it.1)).Nodup)
    (htier : ∀ it ∈ items, it.1.1 ≤ 2) :
    List.insertionSort (fun a b => k8Le a.1 b.1) items =
      List.insertionSort (fun a b => k8Le a.1 b.1) (items.filter (fun it => it.1.1 = 0))
      ++ List.insertionSort (fun a b => k8Le a.1 b.1) (items.filter (fun it => it.1.1 = 1))
      ++ List.insertionSort (fun a b => k8Le a.1 b.1) (items.filter (fun it => it.1.1 = 2)) := by
  apply eq_of_perm_of_sorted_of_nodupkeys (fun it : K8Item => it.1) k8Le
  · -- permutation
    refine (List.perm_insertionSort _ items).trans
      ((perm_three_blocks items htier).trans ?_)
    exact List.Perm.append (List.Perm.append
      (List.perm_insertionSort _ _).symm (List.perm_insertionSort _ _).symm)
      (List.perm_insertionSort _ _).symm
  · exact List.sorted_insertionSort _ _
  · -- the concatenation is sorted
    apply (List.pairwise_append).mpr
    refine ⟨(List.pairwise_append).mpr ⟨List.sorted_insertionSort _ _,
      List.sorted_insertionSort _ _, ?_⟩, List.sorted_insertionSort _ _, ?_⟩
    · intro a ha b hb
      have h0 := mem_sort_filter_tier items 0 a ha
      have h1 := mem_sort_filter_tier items 1 b hb
      exact Or.inl (by omega)
    · intro a ha c hc
      have h2 := mem_sort_filter_tier items 2 c hc
      rcases List.mem_append.mp ha with h | h
      · have h0 := mem_sort_filter_tier items 0 a h
        exact Or.inl (by omega)
      · have h1 := mem_sort_filter_tier items 1 a h
        exact Or.inl (by omega)
  · -- keys of the sorted list are still distinct
    have hp := (List.perm_insertionSort (fun a b : K8Item => k8Le a.1 b.1) items).map
      (fun it : K8Item => it.1)
    exact (hp.nodup_iff).mpr hkey
/-- Modelled from the amended claim: tier blocks A, B, C concatenated,
each block sorted by hybrid score descending (row order on ties), then
capped. -/
def legsSpecC8 (tiered : List (Starter × Tier)) (is_chaos : Bool)
    (single_prog : Option ℤ) : List ℤ :=
  match single_prog with
  | some p => [p]
  | none =>
    let keep := if is_chaos then
        tiered.filter (fun p => p.2 = Tier.A ∨ p.2 = Tier.B ∨ p.2 = Tier.C)
      else tiered.filter (fun p => p.2 = Tier.A ∨ p.2 = Tier.B)
    let minC := qMin (keep.map (fun p => p.1.cpr))
    let maxC := qMax (keep.map (fun p => p.1.cpr))
    let items := keep.enum.map
      (fun q => ((tierOrd q.2.2, hybrid_score minC maxC q.2.1, q.1), q.2))
    let blocks :=
      List.insertionSort (fun a b => k8Le a.1 b.1) (items.filter (fun it => it.1.1 = 0))
      ++ List.insertionSort (fun a b => k8Le a.1 b.1) (items.filter (fun it => it.1.1 = 1))
      ++ List.insertionSort (fun a b => k8Le a.1 b.1) (items.filter (fun it => it.1.1 = 2))
    cap_leg (blocks.map (fun it => it.2.1.program)) is_chaos

theorem items_key_nodup (keep : List (Starter × Tier)) (minC maxC : ℚ) :
    ((keep.enum.map
      (fun q => ((tierOrd q.2.2, hybrid_score minC maxC q.2.1, q.1), q.2))).map
        (fun it : K8Item => it.1)).Nodup := by
  apply List.Nodup.of_map (f := fun k : ℕ × ℚ × ℕ => k.2.2)
  rw [List.map_map, List.map_map]
  have h : (((fun k : ℕ × ℚ × ℕ => k.2.2) ∘ (fun it : K8Item => it.1)) ∘
      (fun q : ℕ × (Starter × Tier) =>
        ((tierOrd q.2.2, hybrid_score minC maxC q.2.1, q.1), q.2))) =
      (Prod.fst : ℕ × (Starter × Tier) → ℕ) := rfl
  rw [h, List.enum_map_fst]
  exact List.nodup_range _

theorem items_tier_le (keep : List (Starter × Tier)) (minC maxC : ℚ) :
    ∀ it ∈ keep.enum.map
      (fun q => ((tierOrd q.2.2, hybrid_score minC maxC q.2.1, q.1), q.2)),
      it.1.1 ≤ 2 := by
  intro it hit
  obtain ⟨q, _, rfl⟩ := List.mem_map.mp hit
  show tierOrd q.2.2 ≤ 2
  cases q.2.2 <;> simp [tierOrd]

/-! # Claim theorems -/

/-- C1: for an over-cap horizontal sequence, `trim_ticket_to_cap` first
rescales the unit to `max(min_unit, round(cap/combinations, 2))` and
stops if that fits the cap; otherwise it repeatedly removes the
last-ranked candidate from the currently-longest leg whose size exceeds
the bet-type floor (2 for Daily Double, 1 otherwise), recomputing the
combinatorial size after each removal, stopping when the cost fits or
no leg can shrink, and the over-cap sequence is still emitted
(`emit` never drops a spanned sequence with non-empty legs). -/
theorem trim_ticket_matches_spec :
    (∀ (seq_name : String) (legs : List (List ℤ)) (unit cap : ℚ) (m : ℕ),
        trim_ticket_to_cap seq_name legs unit cap m = specTrim seq_name legs unit cap m)
    ∧ (minsPerLeg "Daily Double" = 2 ∧ minsPerLeg "Pick 3" = 1 ∧ minsPerLeg "Pick 4" = 1
        ∧ minsPerLeg "Pick 5" = 1 ∧ minsPerLeg "Pick 6" = 1)
    ∧ (∀ (bankroll : ℚ) (legsFor : ℤ → List ℤ) (chaosMap : ℤ → Bool)
        (singleMap : ℤ → Option ℤ) (seq_name : String) (s e : ℤ) (m : ℕ),
        (∀ r ∈ rangeInt s e, legsFor r ≠ []) →
        emit bankroll legsFor chaosMap singleMap seq_name (some (s, e)) m ≠ none) := by
  refine ⟨?_, ⟨rfl, rfl, rfl, rfl, rfl⟩, ?_⟩
  · intro seq legs unit cap m
    rw [trim_ticket_to_cap, specTrim]
    have h1 : (1 : ℕ) ≤ combos_count legs := combos_count_pos legs
    have hmax : max 1 (combos_count legs) = combos_count legs := Nat.max_eq_right h1
    rw [hmax]
    by_cases hc : (combos_count legs : ℚ) * unit ≤ cap
    · simp [hc]
    · simp only [hc, if_false]
      by_cases hc2 : (combos_count legs : ℚ) *
          (max ((MIN_UNITS seq).getD unit) (pyRound2 (cap / (combos_count legs : ℚ)))) ≤ cap
      · simp [hc2]
      · simp only [hc2, if_false]
        exact congrArg (fun x => (x, _))
          (trimLoop_eq_specShrinkLoop _ _ _ (totalLen legs) legs le_rfl)
  · intro bankroll legsFor chaosMap singleMap seq s e m hne
    rw [emit]
    have : ((rangeInt s e).map legsFor).any (fun l => l.isEmpty) = false := by
      rw [List.any_eq_false]
      intro l hl
      rcases List.mem_map.mp hl with ⟨r, hr, hrl⟩
      have := hne r hr
      rw [← hrl]
      simpa [List.isEmpty_iff] using this
    simp only [this, if_false]
    exact fun hcontra => Option.noConfusion hcontra

/-- C1 witness: the refinement and the never-dropped property at
concrete inputs. -/
theorem trim_ticket_matches_spec_witness :
    trim_ticket_to_cap ("Pick 3") [[1,2,3,4],[1,2],[1]] (1/5) 1 1 =
      specTrim ("Pick 3") [[1,2,3,4],[1,2],[1]] (1/5) 1 1
    ∧ emit 500 (fun _ => [1,2]) (fun _ => false) (fun _ => none) ("Daily Double")
        (some (1, 2)) 2 ≠ none :=
  ⟨trim_ticket_matches_spec.1 ("Pick 3") [[1,2,3,4],[1,2],[1]] (1/5) 1 1,
   trim_ticket_matches_spec.2.2 500 (fun _ => [1,2]) (fun _ => false) (fun _ => none)
     ("Daily Double") 1 2 2 (by decide)⟩

/-- C2 counterexample: on 3 legs of size 4 (64 combos) at unit 0.20 with
cap 10.00 and the Pick-3 minimum unit 0.20, the code keeps the unit at
the 0.20 floor (never 0.16) and removes a horse from the first leg,
ending at cost 9.60 — not the claimed 0.16 / 10.24. -/
theorem trim_reference_scenario_cex :
    trim_ticket_to_cap ("Pick 3") [[1,2,3,4],[1,2,3,4],[1,2,3,4]] (1/5) 10 1 =
      ([[1,2,3],[1,2,3,4],[1,2,3,4]], 1/5)
    ∧ ((1 : ℚ)/5 ≠ 16/100)
    ∧ pyRound2 ((combos_count [[1,2,3],[1,2,3,4],[1,2,3,4]] : ℚ) * (1/5)) = 48/5
    ∧ ((48 : ℚ)/5 ≠ 1024/100) := by
  refine ⟨?_, by norm_num, ?_, by norm_num⟩
  · rw [trim_ticket_to_cap]
    norm_num [combos_count, MIN_UNITS_pick3, pyRound2, roundHalfEven, max_def]
    rw [trimLoop_step (by norm_num [combos_count])
      (show pickLongest [[1,2,3,4],[1,2,3,4],[1,2,3,4]] 1 = some (0, [1,2,3,4]) from rfl)]
    norm_num
    rw [trimLoop_stop (by norm_num [combos_count])]
  · norm_num [combos_count, pyRound2, roundHalfEven]

/-- C2 amended: with combos=100, min_unit=0.20, cap=15.00 the rescaled
unit stays at the 0.20 floor and leg-trimming follows; with 3 legs of
size 4 at unit 0.20 and cap 10.00, `round(10/64, 2) = 0.16` lies below
the 0.20 minimum unit, so the unit stays 0.20 and one horse is removed
from the first leg, giving 48 combos and cost 9.60 ≤ cap. -/
theorem trim_reference_scenarios :
    (max ((MIN_UNITS ("Pick 3")).getD (1/5))
        (pyRound2 (15 / (combos_count
          [[1,2,3,4,5,6,7,8,9,10],[1,2,3,4,5,6,7,8,9,10]] : ℚ))) = 1/5)
    ∧ ¬ ((combos_count [[1,2,3,4,5,6,7,8,9,10],[1,2,3,4,5,6,7,8,9,10]] : ℚ) * (1/5) ≤ 15)
    ∧ trim_ticket_to_cap ("Pick 3")
        [[1,2,3,4,5,6,7,8,9,10],[1,2,3,4,5,6,7,8,9,10]] (1/5) 15 1 =
        ([[1,2,3,4,5,6,7,8],[1,2,3,4,5,6,7,8,9]], 1/5)
    ∧ pyRound2 (10 / (combos_count [[1,2,3,4],[1,2,3,4],[1,2,3,4]] : ℚ)) = 16/100
    ∧ trim_ticket_to_cap ("Pick 3") [[1,2,3,4],[1,2,3,4],[1,2,3,4]] (1/5) 10 1 =
        ([[1,2,3],[1,2,3,4],[1,2,3,4]], 1/5)
    ∧ (combos_count [[1,2,3],[1,2,3,4],[1,2,3,4]] : ℚ) * (1/5) ≤ 10 := by
  refine ⟨?_, ?_, ?_, ?_, ?_, ?_⟩
  · norm_num [combos_count, MIN_UNITS_pick3, pyRound2, roundHalfEven, max_def]
  · norm_num [combos_count]
  · rw [trim_ticket_to_cap]
    norm_num [combos_count, MIN_UNITS_pick3, pyRound2, roundHalfEven, max_def]
    rw [trimLoop_step (by norm_num [combos_count])
      (show pickLongest [[1,2,3,4,5,6,7,8,9,10],[1,2,3,4,5,6,7,8,9,10]] 1 =
        some (0, [1,2,3,4,5,6,7,8,9,10]) from rfl)]
    norm_num
    rw [trimLoop_step (by norm_num [combos_count])
      (show pickLongest [[1,2,3,4,5,6,7,8,9],[1,2,3,4,5,6,7,8,9,10]] 1 =
        some (1, [1,2,3,4,5,6,7,8,9,10]) from rfl)]
    norm_num
    rw [trimLoop_step (by norm_num [combos_count])
      (show pickLongest [[1,2,3,4,5,6,7,8,9],[1,2,3,4,5,6,7,8,9]] 1 =
        some (0, [1,2,3,4,5,6,7,8,9]) from rfl)]
    norm_num
    rw [trimLoop_stop (by norm_num [combos_count])]
  · norm_num [combos_count, pyRound2, roundHalfEven]
  · rw [trim_ticket_to_cap]
    norm_num [combos_count, MIN_UNITS_pick3, pyRound2, roundHalfEven, max_def]
    rw [trimLoop_step (by norm_num [combos_count])
      (show pickLongest [[1,2,3,4],[1,2,3,4],[1,2,3,4]] 1 = some (0, [1,2,3,4]) from rfl)]
    norm_num
    rw [trimLoop_stop (by norm_num [combos_count])]
  · norm_num [combos_count]

/-- C3 counterexample: on the reference race (ratings
[90,85,80,75,70], probabilities [0.30,0.20,0.20,0.15,0.15]) the tiers
are not A,A,C,C,C — starter 3 has probability 0.20 ≥ B_MC_MIN = 0.16
and is therefore Tier B. -/
theorem tier_example_cex :
    (assign_tiers [⟨1, 90, 30/100⟩, ⟨2, 85, 20/100⟩, ⟨3, 80, 20/100⟩,
        ⟨4, 75, 15/100⟩, ⟨5, 70, 15/100⟩]).map Prod.snd ≠
      [Tier.A, Tier.A, Tier.C, Tier.C, Tier.C] := by
  norm_num [assign_tiers, seriesRank, List.insertionSort, List.orderedInsert,
    pairLe, assignGroupRanks, qMax, List.enum, List.enumFrom, List.range,
    List.range_succ, A_MC_MIN, B_MC_MIN, B_CPR_DELTA_MAX, List.takeWhile,
    List.dropWhile, List.find?, List.zip, List.zipWith]
  decide

/-- C3 amended: on the reference race the ranks are 1..5, starters 1
and 2 are Tier A (ranks 1 and 2), starter 3 is Tier B (rating gap
10 > 8 but probability 0.20 ≥ 0.16), and starters 4 and 5 are Tier C
(gap > 8 and probability 0.15 < 0.16). -/
theorem tier_example_tiers :
    seriesRank true false [90, 85, 80, 75, 70] = [1, 2, 3, 4, 5]
    ∧ (assign_tiers [⟨1, 90, 30/100⟩, ⟨2, 85, 20/100⟩, ⟨3, 80, 20/100⟩,
        ⟨4, 75, 15/100⟩, ⟨5, 70, 15/100⟩]).map Prod.snd =
      [Tier.A, Tier.A, Tier.B, Tier.C, Tier.C] := by
  constructor
  · rw [seriesRank]
    norm_num [List.insertionSort, List.orderedInsert,
      pairLe, assignGroupRanks, List.enum, List.enumFrom,
      List.takeWhile, List.dropWhile, List.find?,
      show List.range 5 = [0, 1, 2, 3, 4] from rfl]
  · norm_num [assign_tiers, seriesRank, List.insertionSort, List.orderedInsert,
      pairLe, assignGroupRanks, qMax, List.enum, List.enumFrom, List.range,
      List.range_succ, A_MC_MIN, B_MC_MIN, B_CPR_DELTA_MAX, List.takeWhile,
      List.dropWhile, List.find?, List.zip, List.zipWith]

/-- C5: if a single favorite is detected for a race, chaos detection
cannot also trigger on it (its top win probability is ≥ 0.34 > 0.22),
and the leg built for the race is exactly that one program number
whatever the chaos flag says. -/
theorem single_excludes_chaos (sub : List Starter) (advCols : List (List ℚ))
    (tiered : List (Starter × Tier)) (c : Bool) (p : ℤ)
    (h : detect_single sub = some p) :
    chaos_leg sub advCols = false ∧ legs_from_tiers tiered c (some p) = [p] := by
  refine ⟨?_, rfl⟩
  rw [detect_single] at h
  cases hs : List.insertionSort (fun a b : Starter => b.cpr ≤ a.cpr) sub with
  | nil =>
    rw [hs] at h
    cases h
  | cons x rest =>
    rw [hs] at h
    simp only [] at h
    have hxmc : x.mc ≥ SINGLE_MC_MIN := by
      split at h
      · rename_i hcond
        exact hcond.1
      · cases h
    have hperm := List.perm_insertionSort (fun a b : Starter => b.cpr ≤ a.cpr) sub
    rw [hs] at hperm
    have hxmem : x ∈ sub := hperm.mem_iff.mp (List.mem_cons_self _ _)
    have htop : x.mc ≤ qMax (sub.map (fun st => st.mc)) :=
      mem_le_qMax (List.mem_map_of_mem _ hxmem)
    rw [chaos_leg]
    have hfalse : decide (qMax (sub.map (fun st => st.mc)) < MC_TOP_CHAOS_MAX) = false := by
      apply decide_eq_false
      apply not_lt.mpr
      calc MC_TOP_CHAOS_MAX ≤ SINGLE_MC_MIN := by norm_num [MC_TOP_CHAOS_MAX, SINGLE_MC_MIN]
        _ ≤ x.mc := hxmc
        _ ≤ _ := htop
    simp [hfalse]

/-- C5 witness: a race with a detected single favorite, on which chaos
detection is indeed off and the leg is the single program. -/
theorem single_excludes_chaos_witness :
    detect_single [⟨1, 95, 1/2⟩, ⟨2, 90, 1/10⟩] = some 1
    ∧ chaos_leg [⟨1, 95, 1/2⟩, ⟨2, 90, 1/10⟩] [] = false
    ∧ legs_from_tiers [] false (some 1) = [1] := by
  have hd : detect_single [⟨1, 95, 1/2⟩, ⟨2, 90, 1/10⟩] = some 1 := by
    norm_num [detect_single, List.insertionSort, List.orderedInsert,
      SINGLE_MC_MIN, SINGLE_CPR_GAP]
  have hmain := single_excludes_chaos [⟨1, 95, 1/2⟩, ⟨2, 90, 1/10⟩] [] [] false 1 hd
  exact ⟨hd, hmain.1, hmain.2⟩

/-- C10: the trimming procedure rescales the unit at most once, from the
original pre-trim combination count; the returned unit is the original
unit when no trimming was needed and otherwise
`max(min_unit, round(cap/original_combos, 2))`, never recomputed while
legs shrink — so the final cost can land strictly below the cap after
leg removal (concrete instance appended). -/
theorem trim_unit_rescaled_once :
    (∀ (seq_name : String) (legs : List (List ℤ)) (unit cap : ℚ) (m : ℕ),
        (trim_ticket_to_cap seq_name legs unit cap m).2 =
          if (combos_count legs : ℚ) * unit ≤ cap then unit
          else max ((MIN_UNITS seq_name).getD unit)
                 (pyRound2 (cap / (combos_count legs : ℚ))))
    ∧ trim_ticket_to_cap ("NoSuchBet") [[1,2],[1,2]] 3 10 1 = ([[1],[1,2]], 3)
    ∧ ¬ ((combos_count [[1,2],[1,2]] : ℚ) * 3 ≤ 10)
    ∧ (combos_count [[1],[1,2]] : ℚ) * 3 < 10 := by
  refine ⟨?_, ?_, by norm_num [combos_count], by norm_num [combos_count]⟩
  · intro seq legs unit cap m
    rw [trim_ticket_to_cap]
    have h1 : (1 : ℕ) ≤ combos_count legs := combos_count_pos legs
    have hmax : max 1 (combos_count legs) = combos_count legs := Nat.max_eq_right h1
    rw [hmax]
    by_cases hc : (combos_count legs : ℚ) * unit ≤ cap
    · simp [hc]
    · simp only [hc, if_false]
      by_cases hc2 : (combos_count legs : ℚ) *
          (max ((MIN_UNITS seq).getD unit) (pyRound2 (cap / (combos_count legs : ℚ)))) ≤ cap
      · simp [hc2]
      · simp [hc2]
  · rw [trim_ticket_to_cap]
    norm_num [combos_count, MIN_UNITS_nokey, pyRound2, roundHalfEven, max_def]
    rw [trimLoop_step (by norm_num [combos_count])
      (show pickLongest [[1,2],[1,2]] 1 = some (0, [1,2]) from rfl)]
    norm_num
    rw [trimLoop_stop (by norm_num [combos_count])]

/-- C9: the `Series.rank(method="min", ascending=False)` primitive used
by the tier classifier follows the min-rank convention: equal ratings
get equal ranks, every rank equals 1 + (number of strictly greater
ratings), and in particular the starter with the next distinct rating
below the leaders gets rank (count of starters tied at the best
rating) + 1. -/
theorem rank_min_convention (vs : List ℚ) (i j : ℕ)
    (hi : i < vs.length) (hj : j < vs.length) (m : ℚ) :
    (vs.get ⟨i, hi⟩ = vs.get ⟨j, hj⟩ →
      (seriesRank true false vs).get? i = (seriesRank true false vs).get? j)
    ∧ ((seriesRank true false vs).get? i =
        some (((1 + vs.countP (fun w => decide (vs.get ⟨i, hi⟩ < w))) : ℕ) : ℚ))
    ∧ ((∀ w ∈ vs, w = m ∨ w ≤ vs.get ⟨i, hi⟩) → vs.get ⟨i, hi⟩ < m →
        (seriesRank true false vs).get? i =
          some (((vs.countP (fun w => decide (w = m)) + 1) : ℕ) : ℚ)) := by
  refine ⟨?_, seriesRank_min_desc vs i hi, ?_⟩
  · intro hval
    rw [seriesRank_min_desc vs i hi, seriesRank_min_desc vs j hj, hval]
  · intro hsecond hlt
    rw [seriesRank_min_desc vs i hi]
    have hcong : vs.countP (fun w => decide (vs.get ⟨i, hi⟩ < w)) =
        vs.countP (fun w => decide (w = m)) := by
      apply List.countP_congr
      intro a ha
      simp only [decide_eq_true_eq]
      constructor
      · intro halt
        rcases hsecond a ha with h | h
        · exact h
        · exact absurd halt (not_lt.mpr h)
      · intro ham
        exact ham ▸ hlt
    rw [hcong, Nat.add_comm]

/-- C9 witness: on ratings [90, 90, 85, 85] the two tied starters at 85
share a rank, namely (count of 90-ties) + 1 = 3. -/
theorem rank_min_convention_witness :
    ((seriesRank true false [90, 90, 85, 85]).get? 2 =
      (seriesRank true false [90, 90, 85, 85]).get? 3)
    ∧ ((seriesRank true false [90, 90, 85, 85]).get? 2 =
        some ((([90, 90, 85, 85] : List ℚ).countP (fun w => decide (w = 90)) + 1 : ℕ) : ℚ)) := by
  have h := rank_min_convention [90, 90, 85, 85] 2 3 (by norm_num) (by norm_num) 90
  refine ⟨h.1 rfl, h.2.2 ?_ ?_⟩
  · intro w hw
    fin_cases hw <;> norm_num
  · show (85 : ℚ) < 90
    norm_num

theorem exacta_all_nodup (sub : List VRow) (unit : ℚ) {t : VTicket}
    (ht : t ∈ exactaEnumAll sub unit) : t.picks.Nodup := by
  rw [exactaEnumAll] at ht
  obtain ⟨a, ha, hmem⟩ := List.mem_bind.mp ht
  obtain ⟨b, hb, rfl⟩ := List.mem_map.mp hmem
  have hne : b ≠ a := by simpa using List.of_mem_filter hb
  simp [hne.symm]

theorem trifecta_all_nodup (sub : List VRow) (unit : ℚ) {t : VTicket}
    (ht : t ∈ trifectaEnumAll sub unit) : t.picks.Nodup := by
  rw [trifectaEnumAll] at ht
  obtain ⟨a, ha, hmem⟩ := List.mem_bind.mp ht
  obtain ⟨b, hb, hmem2⟩ := List.mem_bind.mp hmem
  by_cases hab : a = b
  · rw [if_pos hab] at hmem2
    cases hmem2
  · rw [if_neg hab] at hmem2
    obtain ⟨c, hc, rfl⟩ := List.mem_map.mp hmem2
    have hcne : ¬ (c = a ∨ c = b) := by simpa using List.of_mem_filter hc
    push_neg at hcne
    simp [hab, Ne.symm hcne.1, Ne.symm hcne.2]

theorem super_all_nodup (sub : List VRow) (unit : ℚ) {t : VTicket}
    (ht : t ∈ superEnumAll sub unit) : t.picks.Nodup := by
  rw [superEnumAll] at ht
  obtain ⟨a, ha, hmem⟩ := List.mem_bind.mp ht
  obtain ⟨b, hb, hmem2⟩ := List.mem_bind.mp hmem
  by_cases hba : b = a
  · rw [if_pos hba] at hmem2
    cases hmem2
  · rw [if_neg hba] at hmem2
    obtain ⟨c, hc, hmem3⟩ := List.mem_bind.mp hmem2
    by_cases hcab : c = a ∨ c = b
    · rw [if_pos hcab] at hmem3
      cases hmem3
    · rw [if_neg hcab] at hmem3
      obtain ⟨d, hd, rfl⟩ := List.mem_map.mp hmem3
      have hdne : ¬ (d = a ∨ d = b ∨ d = c) := by simpa using List.of_mem_filter hd
      push_neg at hcab
      push_neg at hdne
      simp [Ne.symm hba, Ne.symm hcab.1, Ne.symm hcab.2, Ne.symm hdne.1, Ne.symm hdne.2.1,
        Ne.symm hdne.2.2]

/-- C6: vertical enumeration (exacta, trifecta, superfecta) never emits
a ticket with a repeated program number, never exceeds the truncation
limits (24, 24, 60), and keeps the tickets as the prefix of the
nested-loop enumeration order. -/
theorem vertical_tickets_wf (sub : List VRow) (u : ℚ) :
    ((exacta_for_race sub u 24).all (fun t => decide t.picks.Nodup)
      ∧ (exacta_for_race sub u 24).length ≤ 24
      ∧ exacta_for_race sub u 24 = (exactaEnumAll sub u).take 24)
    ∧ ((trifecta_for_race sub u 24).all (fun t => decide t.picks.Nodup)
      ∧ (trifecta_for_race sub u 24).length ≤ 24
      ∧ trifecta_for_race sub u 24 = (trifectaEnumAll sub u).take 24)
    ∧ ((super_for_race sub u 60).all (fun t => decide t.picks.Nodup)
      ∧ (super_for_race sub u 60).length ≤ 60
      ∧ super_for_race sub u 60 = (superEnumAll sub u).take 60) := by
  refine ⟨⟨?_, List.length_take_le _ _, rfl⟩, ⟨?_, List.length_take_le _ _, rfl⟩,
    ⟨?_, List.length_take_le _ _, rfl⟩⟩
  · apply List.all_eq_true.mpr
    intro t ht
    exact decide_eq_true (exacta_all_nodup sub u (List.mem_of_mem_take ht))
  · apply List.all_eq_true.mpr
    intro t ht
    exact decide_eq_true (trifecta_all_nodup sub u (List.mem_of_mem_take ht))
  · apply List.all_eq_true.mpr
    intro t ht
    exact decide_eq_true (super_all_nodup sub u (List.mem_of_mem_take ht))

theorem mem_uniqKeys_aux :
    ∀ (n : ℕ) (l : List ℤ), l.length ≤ n → ∀ a ∈ uniqKeys l, a ∈ l := by
  intro n
  induction n with
  | zero =>
    intro l hl a ha
    have : l = [] := List.length_eq_zero.mp (Nat.le_zero.mp hl)
    subst this
    rw [uniqKeys] at ha
    cases ha
  | succ k ih =>
    intro l hl a ha
    match l with
    | [] =>
      rw [uniqKeys] at ha
      cases ha
    | x :: xs =>
      rw [uniqKeys] at ha
      rcases List.mem_cons.mp ha with h | h
      · exact h ▸ List.mem_cons_self _ _
      · have hlen : (xs.filter (fun y => y ≠ x)).length ≤ k := by
          have := List.length_filter_le (fun y => decide (y ≠ x)) xs
          simp only [List.length_cons] at hl
          omega
        have := ih _ hlen a h
        exact List.mem_cons_of_mem _ (List.mem_of_mem_filter this)

theorem mem_uniqKeys {l : List ℤ} {a : ℤ} (h : a ∈ uniqKeys l) : a ∈ l :=
  mem_uniqKeys_aux l.length l le_rfl a h

theorem uniqKeys_nodup_aux :
    ∀ (n : ℕ) (l : List ℤ), l.length ≤ n → (uniqKeys l).Nodup := by
  intro n
  induction n with
  | zero =>
    intro l hl
    have : l = [] := List.length_eq_zero.mp (Nat.le_zero.mp hl)
    subst this
    rw [uniqKeys]
    exact List.nodup_nil
  | succ k ih =>
    intro l hl
    match l with
    | [] => rw [uniqKeys]; exact List.nodup_nil
    | x :: xs =>
      rw [uniqKeys]
      have hlen : (xs.filter (fun y => y ≠ x)).length ≤ k := by
        have := List.length_filter_le (fun y => decide (y ≠ x)) xs
        simp only [List.length_cons] at hl
        omega
      refine List.nodup_cons.mpr ⟨?_, ih _ hlen⟩
      intro hmem
      have h1 := mem_uniqKeys hmem
      have h2 := List.of_mem_filter h1
      simp at h2

theorem uniqKeys_nodup (l : List ℤ) : (uniqKeys l).Nodup :=
  uniqKeys_nodup_aux l.length l le_rfl

theorem sum_indicator (w : ℤ) : ∀ (l : List ℤ),
    (l.map (fun x => if w = x then (1 : ℕ) else 0)).sum = l.count w := by
  intro l
  induction l with
  | nil => rfl
  | cons x xs ih =>
    rw [List.map_cons, List.sum_cons, List.count_cons, ih]
    by_cases h : w = x
    · simp [beq_iff_eq, h]
      try omega
    · simp [beq_iff_eq, h, Ne.symm h]
      try omega

theorem sum_map_add (l : List ℤ) (f g : ℤ → ℕ) :
    (l.map (fun x => f x + g x)).sum = (l.map f).sum + (l.map g).sum := by
  induction l with
  | nil => rfl
  | cons x xs ih =>
    simp only [List.map_cons, List.sum_cons, ih]
    omega

theorem count_sum (programs : List ℤ) (hnd : programs.Nodup) :
    ∀ (wins : List ℤ), (∀ w ∈ wins, w ∈ programs) →
      (programs.map (fun pp => wins.count pp)).sum = wins.length := by
  intro wins
  induction wins with
  | nil =>
    intro _
    simp
  | cons w ws ih =>
    intro hsub
    have hstep : programs.map (fun pp => (w :: ws).count pp) =
        programs.map (fun pp => ws.count pp + if w = pp then 1 else 0) := by
      apply List.map_congr_left
      intro pp hpp
      rw [List.count_cons]
      simp [beq_iff_eq]
    rw [hstep, sum_map_add,
      ih (fun v hv => hsub v (List.mem_cons_of_mem _ hv)), sum_indicator,
      List.count_eq_one_of_mem hnd (hsub w (List.mem_cons_self _ _))]
    simp
theorem qSum_map_div (l : List ℤ) (f : ℤ → ℕ) (d : ℚ) :
    qSum (l.map (fun x => (f x : ℚ) / d)) = ((l.map f).sum : ℚ) / d := by
  induction l with
  | nil => simp [qSum]
  | cons x xs ih =>
    simp only [List.map_cons, qSum, List.sum_cons, ih]
    push_cast
    rw [add_div]

theorem simulate_filterMap_length (sub : List MRow) :
    ∀ (idxs : List ℕ), (∀ i ∈ idxs, i < sub.length) →
      (idxs.filterMap (fun i => simulate_race_once_v1 sub i)).length = idxs.length := by
  intro idxs
  induction idxs with
  | nil => intro _; rfl
  | cons i is ih =>
    intro hv
    have hi : i < sub.length := hv i (List.mem_cons_self _ _)
    obtain ⟨r, hr⟩ : ∃ r, sub.get? i = some r := by
      rw [List.get?_eq_getElem?]
      exact ⟨_, List.getElem?_eq_getElem hi⟩
    rw [List.filterMap_cons]
    have hs : simulate_race_once_v1 sub i = some r.program := by
      rw [simulate_race_once_v1, hr]
      rfl
    rw [hs, List.length_cons, ih (fun j hj => hv j (List.mem_cons_of_mem _ hj))]
    rfl

theorem simulate_filterMap_mem (sub : List MRow) (idxs : List ℕ) :
    ∀ w ∈ idxs.filterMap (fun i => simulate_race_once_v1 sub i),
      w ∈ sub.map (fun r => r.program) := by
  intro w hw
  obtain ⟨i, _, hsome⟩ := List.mem_filterMap.mp hw
  rw [simulate_race_once_v1] at hsome
  obtain ⟨r, hr, hrw⟩ := Option.map_eq_some'.mp hsome
  exact hrw ▸ List.mem_map_of_mem _ (List.get?_mem hr)

/-- C4: for every race of the card and every possible sequence of drawn
winners (one valid index per trial, at least one trial), the per-starter
win probabilities emitted for that race sum to exactly 1, provided the
race's program numbers are unique; and those rows are part of
`run_mc_simulation`'s output. -/
theorem mc_win_probs_sum_one (card : List MRow) (draws : ℤ → List ℕ)
    (g : ℤ × List MRow) (hg : g ∈ groupByRace card)
    (hnodup : (g.2.map (fun r => r.program)).Nodup)
    (hne : draws g.1 ≠ [])
    (hvalid : ∀ i ∈ draws g.1, i < g.2.length) :
    qSum ((race_rows draws g).map (fun o => o.winprob)) = 1
    ∧ ∀ o ∈ race_rows draws g, o ∈ run_mc_simulation card draws := by
  constructor
  · rw [race_rows]
    simp only [List.map_map]
    have hlen : ((draws g.1).filterMap (fun i => simulate_race_once_v1 g.2 i)).length =
        (draws g.1).length := simulate_filterMap_length g.2 (draws g.1) hvalid
    have hlen_ne : (draws g.1).length ≠ 0 := by
      intro h0
      exact hne (List.length_eq_zero.mp h0)
    have htot : (if ((draws g.1).filterMap (fun i => simulate_race_once_v1 g.2 i)).length = 0
        then (1 : ℚ)
        else (((draws g.1).filterMap (fun i => simulate_race_once_v1 g.2 i)).length : ℚ)) =
        (((draws g.1).filterMap (fun i => simulate_race_once_v1 g.2 i)).length : ℚ) := by
      rw [if_neg]
      rw [hlen]
      exact hlen_ne
    rw [htot]
    have hcomp : ((fun o : MCOut => o.winprob) ∘ fun r : MRow => (⟨g.1, r.program,
          ((((draws g.1).filterMap (fun i => simulate_race_once_v1 g.2 i)).count r.program : ℚ) /
            (((draws g.1).filterMap (fun i => simulate_race_once_v1 g.2 i)).length : ℚ))⟩ : MCOut)) =
        (fun r : MRow =>
          ((((draws g.1).filterMap (fun i => simulate_race_once_v1 g.2 i)).count r.program : ℚ) /
            (((draws g.1).filterMap (fun i => simulate_race_once_v1 g.2 i)).length : ℚ))) := rfl
    have hmm : g.2.map (fun r : MRow =>
          ((((draws g.1).filterMap (fun i => simulate_race_once_v1 g.2 i)).count r.program : ℚ) /
            (((draws g.1).filterMap (fun i => simulate_race_once_v1 g.2 i)).length : ℚ))) =
        (g.2.map (fun r => r.program)).map (fun pp =>
          ((((draws g.1).filterMap (fun i => simulate_race_once_v1 g.2 i)).count pp : ℚ) /
            (((draws g.1).filterMap (fun i => simulate_race_once_v1 g.2 i)).length : ℚ))) := by
      rw [List.map_map]
      rfl
    rw [hcomp, hmm, qSum_map_div,
      count_sum (g.2.map (fun r => r.program)) hnodup _
        (fun w hw => simulate_filterMap_mem g.2 (draws g.1) w hw)]
    rw [hlen]
    exact div_self (Nat.cast_ne_zero.mpr hlen_ne)
  · intro o ho
    rw [run_mc_simulation]
    exact List.mem_bind.mpr ⟨g, hg, ho⟩
/-- C4 witness: a two-starter race with three trials drawing starters
1, 2, 1. -/
theorem mc_win_probs_sum_one_witness :
    qSum ((race_rows (fun _ => [0, 1, 0]) (1, [⟨1, 1, 50⟩, ⟨1, 2, 40⟩])).map
      (fun o => o.winprob)) = 1
    ∧ ∀ o ∈ race_rows (fun _ => [0, 1, 0]) (1, [⟨1, 1, 50⟩, ⟨1, 2, 40⟩]),
        o ∈ run_mc_simulation [⟨1, 1, 50⟩, ⟨1, 2, 40⟩] (fun _ => [0, 1, 0]) := by
  apply mc_win_probs_sum_one
  · show (1, [⟨1, 1, 50⟩, ⟨1, 2, 40⟩]) ∈ groupByRace [⟨1, 1, 50⟩, ⟨1, 2, 40⟩]
    have hgr : groupByRace [(⟨1, 1, 50⟩ : MRow), ⟨1, 2, 40⟩] =
        [(1, [⟨1, 1, 50⟩, ⟨1, 2, 40⟩])] := by
      rw [groupByRace]
      norm_num [uniqKeys]
    rw [hgr]
    exact List.mem_cons_self _ _
  · show (([(⟨1, 1, 50⟩ : MRow), ⟨1, 2, 40⟩]).map (fun r => r.program)).Nodup
    norm_num
  · show ([0, 1, 0] : List ℕ) ≠ []
    decide
  · intro i hi
    fin_cases hi <;> norm_num

/-- C7 (refuting the claim; the spec states the intended behavior):
a 2-starter race makes `simulate_race_once` hit `order[2]` out of range
(modelled as `none`), and because `run_mc_simulation` has no per-race
exception isolation, the whole card's simulation aborts even though the
3-starter race alone simulates fine. -/
theorem ext_sim_small_race_aborts :
    simulate_race_once_ext [⟨2, 1, 50⟩, ⟨2, 2, 40⟩] [1, 1, 1] = none
    ∧ run_mc_simulation_ext
        [⟨1, 1, 50⟩, ⟨1, 2, 40⟩, ⟨1, 3, 30⟩, ⟨2, 1, 50⟩, ⟨2, 2, 40⟩]
        (fun _ => [[1, 1, 1]]) = none
    ∧ run_mc_simulation_ext [⟨1, 1, 50⟩, ⟨1, 2, 40⟩, ⟨1, 3, 30⟩]
        (fun _ => [[1, 1, 1]]) ≠ none := by
  have h2 : simulate_race_once_ext [⟨2, 1, 50⟩, ⟨2, 2, 40⟩] [1, 1, 1] = none := by
    norm_num [simulate_race_once_ext, argsortDesc, List.insertionSort,
      List.orderedInsert, pairLe, qMin, List.enum, List.enumFrom]
  have h1 : simulate_race_once_ext [⟨1, 1, 50⟩, ⟨1, 2, 40⟩, ⟨1, 3, 30⟩] [1, 1, 1] =
      some (1, 2, 3) := by
    norm_num [simulate_race_once_ext, argsortDesc, List.insertionSort,
      List.orderedInsert, pairLe, qMin, List.enum, List.enumFrom]
  have ht2 : race_trials [⟨2, 1, 50⟩, ⟨2, 2, 40⟩] [[1, 1, 1]] = none := by
    rw [race_trials, h2]
  have ht1 : race_trials [⟨1, 1, 50⟩, ⟨1, 2, 40⟩, ⟨1, 3, 30⟩] [[1, 1, 1]] =
      some [(1, 2, 3)] := by
    rw [race_trials, h1, race_trials]
    rfl
  have hr2 : race_rows_ext (fun _ => [[1, 1, 1]]) (2, [⟨2, 1, 50⟩, ⟨2, 2, 40⟩]) = none := by
    rw [race_rows_ext]
    simp only []
    rw [ht2]
    rfl
  have hr1 : (race_rows_ext (fun _ => [[1, 1, 1]])
      (1, [⟨1, 1, 50⟩, ⟨1, 2, 40⟩, ⟨1, 3, 30⟩])).isSome := by
    rw [race_rows_ext]
    simp only []
    rw [ht1]
    rfl
  have hgroups2 : groupByRaceExt
      [⟨1, 1, 50⟩, ⟨1, 2, 40⟩, ⟨1, 3, 30⟩, ⟨2, 1, 50⟩, ⟨2, 2, 40⟩] =
      [(1, [⟨1, 1, 50⟩, ⟨1, 2, 40⟩, ⟨1, 3, 30⟩]), (2, [⟨2, 1, 50⟩, ⟨2, 2, 40⟩])] := by
    rw [groupByRaceExt]
    norm_num [uniqKeys]
  have hgroups1 : groupByRaceExt [⟨1, 1, 50⟩, ⟨1, 2, 40⟩, ⟨1, 3, 30⟩] =
      [(1, [⟨1, 1, 50⟩, ⟨1, 2, 40⟩, ⟨1, 3, 30⟩])] := by
    rw [groupByRaceExt]
    norm_num [uniqKeys]
  obtain ⟨rows1, hrows1⟩ := Option.isSome_iff_exists.mp hr1
  refine ⟨h2, ?_, ?_⟩
  · rw [run_mc_simulation_ext, hgroups2]
    rw [List.foldr_cons, List.foldr_cons, List.foldr_nil]
    rw [hr2, hrows1]
  · rw [run_mc_simulation_ext, hgroups1]
    rw [List.foldr_cons, List.foldr_nil]
    rw [hrows1]
    simp

/-- C8 counterexample: a non-chaos, no-single race where the leg is
[1, 2, 3] although starter 3's hybrid score exceeds starter 2's — the
leg is not listed in descending hybrid-score order, because the tier
order takes priority (2 is Tier A, 3 is Tier B). -/
theorem legs_order_cex :
    detect_single [⟨1, 91, 28/100⟩, ⟨2, 90, 0⟩, ⟨3, 89, 27/100⟩] = none
    ∧ chaos_leg [⟨1, 91, 28/100⟩, ⟨2, 90, 0⟩, ⟨3, 89, 27/100⟩] [] = false
    ∧ (assign_tiers [⟨1, 91, 28/100⟩, ⟨2, 90, 0⟩, ⟨3, 89, 27/100⟩]).map Prod.snd =
        [Tier.A, Tier.A, Tier.B]
    ∧ legs_from_tiers (assign_tiers [⟨1, 91, 28/100⟩, ⟨2, 90, 0⟩, ⟨3, 89, 27/100⟩])
        false none = [1, 2, 3]
    ∧ hybrid_score 89 91 ⟨3, 89, 27/100⟩ > hybrid_score 89 91 ⟨2, 90, 0⟩ := by
  refine ⟨?_, ?_, ?_, ?_, ?_⟩
  · norm_num [detect_single, List.insertionSort, List.orderedInsert,
      SINGLE_MC_MIN, SINGLE_CPR_GAP]
  · norm_num [chaos_leg, qMax, qMin, MC_TOP_CHAOS_MAX, CPR_SPREAD3_MAX,
      ADVERSITY_MIN, count_adversity_flags, List.insertionSort, List.orderedInsert]
  · norm_num [assign_tiers, seriesRank, List.insertionSort, List.orderedInsert,
      pairLe, assignGroupRanks, qMax, List.enum, List.enumFrom,
      A_MC_MIN, B_MC_MIN, B_CPR_DELTA_MAX, List.takeWhile,
      List.dropWhile, List.find?, List.zip, List.zipWith,
      show List.range 3 = [0, 1, 2] from rfl]
  · have htiers : assign_tiers [⟨1, 91, 28/100⟩, ⟨2, 90, 0⟩, ⟨3, 89, 27/100⟩] =
        [(⟨1, 91, 28/100⟩, Tier.A), (⟨2, 90, 0⟩, Tier.A), (⟨3, 89, 27/100⟩, Tier.B)] := by
      norm_num [assign_tiers, seriesRank, List.insertionSort, List.orderedInsert,
        pairLe, assignGroupRanks, qMax, List.enum, List.enumFrom,
        A_MC_MIN, B_MC_MIN, B_CPR_DELTA_MAX, List.takeWhile,
        List.dropWhile, List.find?, List.zip, List.zipWith,
        show List.range 3 = [0, 1, 2] from rfl]
    rw [htiers]
    norm_num [legs_from_tiers, legsSpecC8, cap_leg, k8Le, hybrid_score, tierOrd,
      qMin, qMax, List.insertionSort, List.orderedInsert, List.enum, List.enumFrom,
      MAX_PER_LEG_NON_CHAOS, MAX_PER_LEG_CHAOS]
  · norm_num [hybrid_score]

/-- C8 amended: for a race without a detected single favorite the leg
is the Tier-A+B starters (plus C if chaos) listed by tier (A, then B,
then C) and by hybrid score descending within each tier (row order on
ties), truncated to 4 starters for a non-chaos race and 6 for chaos. -/
theorem legs_from_tiers_tier_blocks (tiered : List (Starter × Tier))
    (c : Bool) (s : Option ℤ) :
    legs_from_tiers tiered c s = legsSpecC8 tiered c s := by
  cases s with
  | some p => rfl
  | none =>
    simp only [legs_from_tiers, legsSpecC8]
    congr 1
    congr 1
    exact sort_eq_tier_blocks _ (items_key_nodup _ _ _) (items_tier_le _ _ _)

end Apex
